import Mathlib

/-!
Verification of the cennznet contract-sdk persistence layer
(`src/storage.rs`, `src/map.rs`) against its specification.

Bytes are modelled as `List Nat` with values reduced mod 256 where a byte
is produced or consumed.  The SCALE (`parity_codec`) length prefix and the
little-endian integer encodings are embedded executably; `Map` mirrors the
Rust `Map { inner, storage_key }` with the `hashbrown::HashMap` represented
as an association list in iteration order.
-/

namespace ContractSdk

/-- Bytes of the embedding: a list of naturals, each meant to be `< 256`. -/
abbrev Bytes := List Nat

/-- Little-endian encoding of `n` on `k` bytes, as `parity_codec` writes
fixed-width integers (`u16`/`u32` are stored least significant byte first). -/
def toLE (n : Nat) : Nat → Bytes
  | 0 => []
  | k + 1 => n % 256 :: toLE (n / 256) k

/-- Read `k` little-endian bytes from the front of a stream, returning the
value and the remaining stream; `none` if the stream is too short. -/
def readLE : Nat → Bytes → Option (Nat × Bytes)
  | 0, bs => some (0, bs)
  | _ + 1, [] => none
  | k + 1, b :: bs =>
    match readLE k bs with
    | none => none
    | some (n, rest) => some (b % 256 + 256 * n, rest)

theorem toLE_length (n k : Nat) : (toLE n k).length = k := by
  induction k generalizing n with
  | zero => rfl
  | succ k ih => simp [toLE, ih]

theorem readLE_toLE (k n : Nat) (rest : Bytes) :
    readLE k (toLE n k ++ rest) = some (n % 256 ^ k, rest) := by
  induction k generalizing n with
  | zero => simp [toLE, readLE, Nat.mod_one]
  | succ k ih =>
    simp only [toLE, List.cons_append, readLE, List.append_eq, ih,
      Nat.mod_mod_of_dvd _ dvd_rfl]
    rw [pow_succ, mul_comm (256 ^ k) 256, Nat.mod_mul]

/-- SCALE compact encoding of an unsigned integer, as `parity_codec` writes
the length of a `Vec`: mode 0 (one byte) for `n < 2^6`, mode 1 (two bytes,
little endian) for `n < 2^14`, mode 2 (four bytes) for `n < 2^30`, and the
big-integer mode 3 with a four-byte payload for `n < 2^32`. -/
def compactEncode (n : Nat) : Bytes :=
  if n < 64 then [n * 4]
  else if n < 16384 then toLE (n * 4 + 1) 2
  else if n < 1073741824 then toLE (n * 4 + 2) 4
  else 3 :: toLE n 4

/-- SCALE compact decoding of an unsigned integer (as `Compact<u32>`): the
low two bits of the first byte select the mode; in mode 3 the count of
payload bytes beyond four must be zero for a `u32`. -/
def compactDecode : Bytes → Option (Nat × Bytes)
  | [] => none
  | b :: bs =>
    let b0 := b % 256
    match b0 % 4 with
    | 0 => some (b0 / 4, bs)
    | 1 =>
      match readLE 1 bs with
      | none => none
      | some (hi, rest) => some ((b0 + 256 * hi) / 4, rest)
    | 2 =>
      match readLE 3 bs with
      | none => none
      | some (hi, rest) => some ((b0 + 256 * hi) / 4, rest)
    | _ =>
      if b0 / 4 = 0 then
        match readLE 4 bs with
        | none => none
        | some (n, rest) => some (n, rest)
      else none

theorem compactDecode_compactEncode (n : Nat) (hn : n < 2 ^ 32) (rest : Bytes) :
    compactDecode (compactEncode n ++ rest) = some (n, rest) := by
  unfold compactEncode
  by_cases h1 : n < 64
  · have hb : n * 4 % 256 = n * 4 := Nat.mod_eq_of_lt (by omega)
    simp only [if_pos h1, List.cons_append, compactDecode, hb]
    simp [Nat.mul_mod_left]
  · by_cases h2 : n < 16384
    · have henc : toLE (n * 4 + 1) 2 = (n * 4 + 1) % 256 :: toLE ((n * 4 + 1) / 256) 1 := rfl
      simp only [if_neg h1, if_pos h2, henc, List.cons_append, compactDecode]
      have hmm : (n * 4 + 1) % 256 % 256 = (n * 4 + 1) % 256 := Nat.mod_mod_of_dvd _ dvd_rfl
      have hm4 : (n * 4 + 1) % 256 % 4 = 1 := by
        rw [Nat.mod_mod_of_dvd _ (by norm_num : (4 : Nat) ∣ 256)]
        omega
      have hr : readLE 1 (toLE ((n * 4 + 1) / 256) 1 ++ rest)
          = some ((n * 4 + 1) / 256 % 256, rest) := readLE_toLE 1 _ rest
      simp only [hmm, hm4, hr]
      have hlt : n * 4 + 1 < 256 * 256 := by omega
      have : (n * 4 + 1) % 256 + 256 * ((n * 4 + 1) / 256 % 256) = n * 4 + 1 := by
        rw [← Nat.mod_mul, Nat.mod_eq_of_lt hlt]
      rw [this]
      norm_num
      omega
    · by_cases h3 : n < 1073741824
      · have henc : toLE (n * 4 + 2) 4 = (n * 4 + 2) % 256 :: toLE ((n * 4 + 2) / 256) 3 := rfl
        simp only [if_neg h1, if_neg h2, if_pos h3, henc, List.cons_append, compactDecode]
        have hmm : (n * 4 + 2) % 256 % 256 = (n * 4 + 2) % 256 := Nat.mod_mod_of_dvd _ dvd_rfl
        have hm4 : (n * 4 + 2) % 256 % 4 = 2 := by
          rw [Nat.mod_mod_of_dvd _ (by norm_num : (4 : Nat) ∣ 256)]
          omega
        have hr : readLE 3 (toLE ((n * 4 + 2) / 256) 3 ++ rest)
            = some ((n * 4 + 2) / 256 % 256 ^ 3, rest) := readLE_toLE 3 _ rest
        simp only [hmm, hm4, hr]
        have hlt : n * 4 + 2 < 256 * 256 ^ 3 := by norm_num; omega
        have : (n * 4 + 2) % 256 + 256 * ((n * 4 + 2) / 256 % 256 ^ 3) = n * 4 + 2 := by
          rw [← Nat.mod_mul, Nat.mod_eq_of_lt hlt]
        rw [this]
        norm_num
        omega
      · simp only [if_neg h1, if_neg h2, if_neg h3, List.cons_append, compactDecode]
        have hr : readLE 4 (toLE n 4 ++ rest) = some (n % 256 ^ 4, rest) := readLE_toLE 4 _ rest
        have hn4 : n % 256 ^ 4 = n := Nat.mod_eq_of_lt (by norm_num; omega)
        norm_num [hr, hn4]
        omega

/-- The storage-key derivation of `impl From<T> for StorageKey`
(`storage.rs` lines 62-78): inputs of length at least 32 are truncated to
their first 32 bytes; shorter inputs are left-aligned in a zeroed 32-byte
buffer. -/
def storageKeyFrom (b : Bytes) : Bytes :=
  if 32 ≤ b.length then b.take 32
  else b ++ List.replicate (32 - b.length) 0

/-- Modelled from the spec: `map.rs` imports `to_storage_key` from
`crate::storage`, absent from this snapshot of `storage.rs`; §4.1/§6 fix
storage-key derivation as the truncate-or-zero-pad function, identical to
the `From<T> for StorageKey` impl that is present. -/
def to_storage_key (b : Bytes) : Bytes := storageKeyFrom b

/-- The all-zero 32-byte key: `StorageKey::zero()` (`storage.rs` lines
39-41), and the `STORAGE_KEY_ZERO` constant `map.rs` imports (modelled from
the spec, which names a reserved all-zero sentinel key). -/
def STORAGE_KEY_ZERO : Bytes := List.replicate 32 0

/-- Association-list lookup: the value stored under `k`, mirroring
`HashMap::get` on the iteration-order list of entries. -/
def lookupKV [DecidableEq K] : List (K × V) → K → Option V
  | [], _ => none
  | p :: ps, k => if p.1 = k then some p.2 else lookupKV ps k

/-- Association-list insert, mirroring `HashMap::insert`: an existing entry
for the key has its value replaced in place; otherwise the new pair is
appended. -/
def insertKV [DecidableEq K] : List (K × V) → K → V → List (K × V)
  | [], k, v => [(k, v)]
  | p :: ps, k, v => if p.1 = k then (k, v) :: ps else p :: insertKV ps k v

/-- Association-list removal, mirroring `HashMap::remove`: the (unique)
entry for the key, if any, is dropped. -/
def removeKV [DecidableEq K] : List (K × V) → K → List (K × V)
  | [], _ => []
  | p :: ps, k => if p.1 = k then ps else p :: removeKV ps k

/-- Association-list membership test, mirroring `HashMap::contains_key`. -/
def containsKV [DecidableEq K] : List (K × V) → K → Bool
  | [], _ => false
  | p :: ps, k => p.1 = k || containsKV ps k

/-- The `Map` of `map.rs`: a `hashbrown::HashMap` (modelled as an
association list in iteration order, keys unique in every reachable state)
together with the bound `storage_key`. -/
structure Map (K V : Type) where
  inner : List (K × V)
  storage_key : Bytes
  deriving DecidableEq

namespace Map

variable {K V : Type} [DecidableEq K]

/-- `Map::new` (`map.rs` lines 29-34): empty table, key derived from the
given bytes. -/
def new (storage_key : Bytes) : Map K V :=
  { inner := [], storage_key := to_storage_key storage_key }

/-- `Map::default` (`map.rs` lines 37-42): empty table at the zero key. -/
def default : Map K V :=
  { inner := [], storage_key := STORAGE_KEY_ZERO }

/-- `Map::len`. -/
def len (m : Map K V) : Nat := m.inner.length

/-- `Map::is_empty`. -/
def is_empty (m : Map K V) : Bool := m.inner.isEmpty

/-- `Map::get` (`map.rs` lines 55-61). -/
def get (m : Map K V) (k : K) : Option V := lookupKV m.inner k

/-- `Map::insert` (`map.rs` lines 73-75). -/
def insert (m : Map K V) (k : K) (v : V) : Map K V :=
  { m with inner := insertKV m.inner k v }

/-- `Map::remove` (`map.rs` lines 78-84): drops the entry from the
in-memory table only; a pure function of the map, touching no store. -/
def remove (m : Map K V) (k : K) : Map K V :=
  { m with inner := removeKV m.inner k }

/-- `Map::contains_key` (`map.rs` lines 86-92). -/
def contains_key (m : Map K V) (k : K) : Bool := containsKV m.inner k

end Map

/-- A stream decoder for values of type `α`: consumes a front segment of
the byte stream, returning the value and the remaining stream, `none` on a
decode error (the shape of `parity_codec::Decode`). -/
abbrev Dec (α : Type) := Bytes → Option (α × Bytes)

/-- Encoding of one `(key, value)` pair, as `parity_codec` encodes tuples:
the key's bytes followed by the value's bytes. -/
def pairEnc (eK : K → Bytes) (eV : V → Bytes) (p : K × V) : Bytes :=
  eK p.1 ++ eV p.2

/-- Decoding of one `(key, value)` pair: key first, then value. -/
def pairDec (dK : Dec K) (dV : Dec V) : Dec (K × V) := fun bs =>
  match dK bs with
  | none => none
  | some (k, rest) =>
    match dV rest with
    | none => none
    | some (v, rest2) => some ((k, v), rest2)

/-- Decoding of exactly `n` consecutive items, as `Vec::decode` reads its
declared count of elements; fails if any item fails. -/
def decodeItems (d : Dec α) : Nat → Bytes → Option (List α × Bytes)
  | 0, bs => some ([], bs)
  | n + 1, bs =>
    match d bs with
    | none => none
    | some (a, rest) =>
      match decodeItems d n rest with
      | none => none
      | some (as, rest2) => some (a :: as, rest2)

/-- `impl Encode for Map` (`map.rs` lines 134-147): collect the pairs in
iteration order into a vector and encode it, i.e. a SCALE compact count
(the length cast `as u32`) followed by each pair's encoding. -/
def mapEncode (eK : K → Bytes) (eV : V → Bytes) (m : Map K V) : Bytes :=
  compactEncode (m.inner.length % 2 ^ 32) ++ (m.inner.map (pairEnc eK eV)).flatten

/-- `impl Decode for Map` (`map.rs` lines 150-166): decode the pair vector,
then rebuild a map by inserting each pair into `Map::default()`. -/
def mapDecode [DecidableEq K] (dK : Dec K) (dV : Dec V) : Dec (Map K V) := fun bs =>
  match compactDecode bs with
  | none => none
  | some (n, rest) =>
    match decodeItems (pairDec dK dV) n rest with
    | none => none
    | some (data, rest2) =>
      some (data.foldl (fun m p => m.insert p.1 p.2) Map.default, rest2)

/-- The host's persistent store, the state behind `ext_get_storage` /
`ext_set_storage`: bytes previously stored per 32-byte key, `none` where
never written. -/
abbrev Store := Bytes → Option Bytes

/-- One `ext_set_storage` host call as `StorageABI::put_kv` issues it
(`storage.rs` lines 120-133): the key, the `value_non_null` flag, and the
value bytes passed (empty when the value is absent). -/
structure SetStorageCall where
  key : Bytes
  value_non_null : Nat
  value : Bytes
  deriving DecidableEq

/-- `StorageABI::put_kv for Storage` (`storage.rs` lines 118-133): a
present value is passed with flag 1 and exactly its bytes; an absent value
is passed with flag 0 and no bytes. -/
def put_kv (k : Bytes) (v : Option Bytes) : SetStorageCall :=
  match v with
  | some bytes => { key := k, value_non_null := 1, value := bytes }
  | none => { key := k, value_non_null := 0, value := [] }

/-- `StorageABI::get_kv for Storage` (`storage.rs` lines 136-145): read the
bytes stored under `k`, `none` if the host reports no entry. -/
def get_kv (store : Store) (k : Bytes) : Option Bytes := store k

/-- Modelled from the spec: the host collaborator's effect of one
`ext_set_storage` call on the store (§6, §5: a single atomic last-write-wins
write of one key); flag 1 stores the passed bytes, flag 0 leaves no entry
(the host's clear signal carries no bytes to store). -/
def applyCall (store : Store) (c : SetStorageCall) : Store := fun k =>
  if k = c.key then (if c.value_non_null = 1 then some c.value else none)
  else store k

/-- `Storage::remove` (`storage.rs` lines 107-114): derives the key and
writes the 32-byte zero sentinel through `put_kv`. -/
def storageRemove (key : Bytes) : SetStorageCall :=
  put_kv (storageKeyFrom key) (some STORAGE_KEY_ZERO)

/-- `Storage::get` (`storage.rs` lines 95-105) for a value type with stream
decoder `dV`: fetch the bytes under the derived key and decode them,
returning `none` both when no entry exists and when decoding fails. -/
def storageGet (dV : Dec V) (store : Store) (key : Bytes) : Option V :=
  match get_kv store (storageKeyFrom key) with
  | some v => (dV v).map Prod.fst
  | none => none

namespace Map

variable {K V : Type} [DecidableEq K]

/-- `Map::load` (`map.rs` lines 115-124): fetch the bytes under the derived
key and decode; both `.unwrap()` panics (no entry, or decode failure) are
modelled as `none`. On success the requested key is bound to the result. -/
def load (dK : Dec K) (dV : Dec V) (store : Store) (key : Bytes) : Option (Map K V) :=
  match get_kv store (to_storage_key key) with
  | none => none
  | some buf =>
    match mapDecode dK dV buf with
    | none => none
    | some (m, _) => some { m with storage_key := to_storage_key key }

/-- `Map::load_or_create` (`map.rs` lines 102-111): fetch the bytes under
the derived key, an absent entry standing in as the empty buffer; on decode
success bind the requested key, and on decode failure fall back to
`Map::new(key)` (the `.unwrap_or(Self::new(key))` of the source). -/
def load_or_create (dK : Dec K) (dV : Dec V) (store : Store) (key : Bytes) : Map K V :=
  match mapDecode dK dV ((get_kv store (to_storage_key key)).getD []) with
  | some (m, _) => { m with storage_key := to_storage_key key }
  | none => Map.new key

/-- `Map::flush` (`map.rs` lines 127-131): the host calls flush makes — a
single `put_kv` of the full encoding under the (re-derived) bound key. -/
def flushCalls (eK : K → Bytes) (eV : V → Bytes) (m : Map K V) : List SetStorageCall :=
  [put_kv (to_storage_key m.storage_key) (some (mapEncode eK eV m))]

end Map

theorem decodeItems_flatten (d : Dec α) (R : α → α → Prop) (enc : α → Bytes)
    (l : List α)
    (h : ∀ a ∈ l, ∀ rest, ∃ a2, d (enc a ++ rest) = some (a2, rest) ∧ R a a2)
    (rest : Bytes) :
    ∃ l2, decodeItems d l.length ((l.map enc).flatten ++ rest) = some (l2, rest) ∧
      List.Forall₂ R l l2 := by
  induction l with
  | nil => exact ⟨[], rfl, List.Forall₂.nil⟩
  | cons a as ih =>
    obtain ⟨a2, ha2, hr⟩ := h a (List.mem_cons_self a as) ((as.map enc).flatten ++ rest)
    obtain ⟨l2, hl2, hfa⟩ := ih (fun b hb => h b (List.mem_cons_of_mem a hb))
    refine ⟨a2 :: l2, ?_, List.Forall₂.cons hr hfa⟩
    simp only [List.length_cons, List.map_cons, List.flatten_cons, List.append_assoc,
      decodeItems, ha2, hl2]

theorem insertKV_append [DecidableEq K] (l : List (K × V)) (k : K) (v : V)
    (h : ∀ p ∈ l, p.1 ≠ k) : insertKV l k v = l ++ [(k, v)] := by
  induction l with
  | nil => rfl
  | cons p ps ih =>
    have hp : p.1 ≠ k := h p (List.mem_cons_self p ps)
    simp only [insertKV, if_neg hp, List.cons_append, List.cons.injEq, true_and]
    exact ih (fun q hq => h q (List.mem_cons_of_mem p hq))

theorem foldl_insert_storage_key [DecidableEq K] (l : List (K × V)) (m : Map K V) :
    (l.foldl (fun m p => m.insert p.1 p.2) m).storage_key = m.storage_key := by
  induction l generalizing m with
  | nil => rfl
  | cons p ps ih => rw [List.foldl_cons, ih]; rfl

theorem foldl_insert_inner [DecidableEq K] (l : List (K × V)) (m : Map K V)
    (hnd : (l.map Prod.fst).Nodup)
    (hdis : ∀ p ∈ m.inner, ∀ q ∈ l, p.1 ≠ q.1) :
    (l.foldl (fun m p => m.insert p.1 p.2) m).inner = m.inner ++ l := by
  induction l generalizing m with
  | nil => simp
  | cons p ps ih =>
    simp only [List.map_cons, List.nodup_cons] at hnd
    simp only [List.foldl_cons]
    have hins : (m.insert p.1 p.2).inner = m.inner ++ [p] := by
      simp only [Map.insert]
      exact insertKV_append m.inner p.1 p.2
        (fun q hq => hdis q hq p (List.mem_cons_self p ps))
    have hdis2 : ∀ q ∈ (m.insert p.1 p.2).inner, ∀ r ∈ ps, q.1 ≠ r.1 := by
      intro q hq r hr
      rw [hins] at hq
      rcases List.mem_append.mp hq with hq | hq
      · exact hdis q hq r (List.mem_cons_of_mem p hr)
      · have : q = p := List.mem_singleton.mp hq
        subst this
        intro hqr
        exact hnd.1 (hqr ▸ List.mem_map_of_mem Prod.fst hr)
    rw [ih (m.insert p.1 p.2) hnd.2 hdis2, hins, List.append_assoc, List.singleton_append]

theorem lookup_forall₂ [DecidableEq K] (R : V → V → Prop) (l l2 : List (K × V))
    (h : List.Forall₂ (fun p q => p.1 = q.1 ∧ R p.2 q.2) l l2) (k : K) :
    Option.Rel R (lookupKV l k) (lookupKV l2 k) := by
  induction h with
  | nil => exact Option.Rel.none
  | cons hpq _ ih =>
    rename_i p q l l2 hfa
    simp only [lookupKV, hpq.1]
    by_cases hk : q.1 = k
    · simp only [if_pos hk]
      exact Option.Rel.some hpq.2
    · simp only [if_neg hk]
      exact ih

/-- The `parity_codec` encoding of a `u32` (the key and value type of the
repository's own map tests): four little-endian bytes. -/
def encU32 (n : Nat) : Bytes := toLE n 4

/-- The `parity_codec` decoding of a `u32`: read four little-endian bytes. -/
def decU32 : Dec Nat := readLE 4

theorem decU32_encU32 (n : Nat) (h : n < 2 ^ 32) (rest : Bytes) :
    decU32 (encU32 n ++ rest) = some (n, rest) := by
  have := readLE_toLE 4 n rest
  rw [decU32, encU32, this, Nat.mod_eq_of_lt (by norm_num; omega)]

theorem forall₂_map_fst [DecidableEq K] {R : V → V → Prop} {l l2 : List (K × V)}
    (h : List.Forall₂ (fun p q => p.1 = q.1 ∧ R p.2 q.2) l l2) :
    l2.map Prod.fst = l.map Prod.fst := by
  induction h with
  | nil => rfl
  | cons hpq _ ih => simp only [List.map_cons, ih, hpq.1]

theorem storageKeyFrom_length (b : Bytes) : (storageKeyFrom b).length = 32 := by
  unfold storageKeyFrom
  split <;> simp <;> omega

/-- The nested map of the repository's `nested_maps_work` test: inner map
`{7 ↦ 9}` stored under the outer keys 1 and 2. -/
def sampleInner : Map Nat Nat := { inner := [(7, 9)], storage_key := STORAGE_KEY_ZERO }

/-- Outer sample map holding `sampleInner` under keys 1 and 2. -/
def sampleNested : Map Nat (Map Nat Nat) :=
  { inner := [(1, sampleInner), (2, sampleInner)], storage_key := STORAGE_KEY_ZERO }

/-- Content equality of two (inner) maps: entry lists correspond pairwise
and lookups agree at every key. -/
def mapContentEq (v v2 : Map Nat Nat) : Prop :=
  List.Forall₂ (fun p q => p.1 = q.1 ∧ p.2 = q.2) v.inner v2.inner ∧
    ∀ k, Option.Rel Eq (v.get k) (v2.get k)

theorem storageKeyFrom_of_length32 (b : Bytes) (h : b.length = 32) :
    storageKeyFrom b = b := by
  unfold storageKeyFrom
  rw [if_pos (by omega), ← h, List.take_length]

theorem lookupKV_eq_none [DecidableEq K] (l : List (K × V)) (k : K)
    (h : ∀ p ∈ l, p.1 ≠ k) : lookupKV l k = none := by
  induction l with
  | nil => rfl
  | cons p ps ih =>
    rw [lookupKV, if_neg (h p (List.mem_cons_self p ps))]
    exact ih fun q hq => h q (List.mem_cons_of_mem p hq)

theorem lookupKV_removeKV [DecidableEq K] (l : List (K × V)) (k : K)
    (hnd : (l.map Prod.fst).Nodup) : lookupKV (removeKV l k) k = none := by
  induction l with
  | nil => rfl
  | cons p ps ih =>
    simp only [List.map_cons, List.nodup_cons] at hnd
    by_cases hk : p.1 = k
    · rw [removeKV, if_pos hk]
      refine lookupKV_eq_none ps k ?_
      intro q hq hqk
      apply hnd.1
      rw [hk, ← hqk]
      exact List.mem_map_of_mem Prod.fst hq
    · rw [removeKV, if_neg hk, lookupKV, if_neg hk]
      exact ih hnd.2

theorem containsKV_eq_isSome [DecidableEq K] (l : List (K × V)) (k : K) :
    containsKV l k = (lookupKV l k).isSome := by
  induction l with
  | nil => rfl
  | cons p ps ih =>
    by_cases hk : p.1 = k <;> simp [containsKV, lookupKV, hk, ih]

theorem removeKV_not_mem [DecidableEq K] (l : List (K × V)) (k : K)
    (h : containsKV l k = false) : removeKV l k = l := by
  induction l with
  | nil => rfl
  | cons p ps ih =>
    simp only [containsKV, Bool.or_eq_false_iff, decide_eq_false_iff_not] at h
    rw [removeKV, if_neg h.1, ih h.2]

theorem decodeItems_mem (d : Dec α) (n : Nat) (bs : Bytes) (l : List α) (rest : Bytes)
    (h : decodeItems d n bs = some (l, rest)) (a : α) (ha : a ∈ l) :
    ∃ bs2 rest2, d bs2 = some (a, rest2) := by
  induction n generalizing bs l rest with
  | zero =>
    rw [decodeItems] at h
    simp only [Option.some.injEq, Prod.mk.injEq] at h
    rw [← h.1] at ha
    exact absurd ha (List.not_mem_nil a)
  | succ n ih =>
    rw [decodeItems] at h
    split at h
    · exact absurd h (by simp)
    · rename_i a1 rest1 hd
      split at h
      · exact absurd h (by simp)
      · rename_i as1 rest2 hds
        simp only [Option.some.injEq, Prod.mk.injEq] at h
        rw [← h.1] at ha
        rcases List.mem_cons.mp ha with ha | ha
        · exact ⟨bs, rest1, by rw [hd, ha]⟩
        · exact ih rest1 as1 rest2 hds ha

theorem mem_insertKV [DecidableEq K] (l : List (K × V)) (k : K) (v : V) (q : K × V)
    (h : q ∈ insertKV l k v) : q ∈ l ∨ q = (k, v) := by
  induction l with
  | nil => simpa [insertKV] using h
  | cons p ps ih =>
    rw [insertKV] at h
    by_cases hk : p.1 = k
    · rw [if_pos hk] at h
      rcases List.mem_cons.mp h with h | h
      · exact Or.inr h
      · exact Or.inl (List.mem_cons_of_mem p h)
    · rw [if_neg hk] at h
      rcases List.mem_cons.mp h with h | h
      · exact Or.inl (h ▸ List.mem_cons_self p ps)
      · rcases ih h with h | h
        · exact Or.inl (List.mem_cons_of_mem p h)
        · exact Or.inr h

theorem mem_foldl_insert [DecidableEq K] (l : List (K × V)) (m : Map K V) (q : K × V)
    (h : q ∈ (l.foldl (fun m p => m.insert p.1 p.2) m).inner) : q ∈ m.inner ∨ q ∈ l := by
  induction l generalizing m with
  | nil => exact Or.inl h
  | cons p ps ih =>
    rw [List.foldl_cons] at h
    rcases ih (m.insert p.1 p.2) h with h | h
    · rcases mem_insertKV m.inner p.1 p.2 q h with h | h
      · exact Or.inl h
      · exact Or.inr (h ▸ List.mem_cons_self p ps)
    · exact Or.inr (List.mem_cons_of_mem p h)

theorem mapDecode_key_zero [DecidableEq K] (dK : Dec K) (dV : Dec V) (bs : Bytes)
    (m : Map K V) (rest : Bytes) (h : mapDecode dK dV bs = some (m, rest)) :
    m.storage_key = STORAGE_KEY_ZERO := by
  unfold mapDecode at h
  split at h
  · exact absurd h (by simp)
  · rename_i n rest1 hc
    split at h
    · exact absurd h (by simp)
    · rename_i data rest2 hd
      simp only [Option.some.injEq, Prod.mk.injEq] at h
      rw [← h.1, foldl_insert_storage_key]
      rfl

theorem mapDecode_inner [DecidableEq K] (dK : Dec K) (dV : Dec V) (bs : Bytes)
    (m : Map K V) (rest : Bytes) (h : mapDecode dK dV bs = some (m, rest)) (q : K × V)
    (hq : q ∈ m.inner) : ∃ bs2 rest2, dV bs2 = some (q.2, rest2) := by
  unfold mapDecode at h
  split at h
  · exact absurd h (by simp)
  · rename_i n rest1 hc
    split at h
    · exact absurd h (by simp)
    · rename_i data rest2 hd
      simp only [Option.some.injEq, Prod.mk.injEq] at h
      rw [← h.1] at hq
      rcases mem_foldl_insert data Map.default q hq with hq | hq
      · exact absurd hq (by simp [Map.default])
      · obtain ⟨bs2, rest3, hpair⟩ := decodeItems_mem (pairDec dK dV) n rest1 data rest2 hd q hq
        unfold pairDec at hpair
        split at hpair
        · exact absurd hpair (by simp)
        · rename_i k1 r1 hk
          split at hpair
          · exact absurd hpair (by simp)
          · rename_i v1 r2 hv
            simp only [Option.some.injEq, Prod.mk.injEq] at hpair
            exact ⟨r1, r2, by rw [hv, ← hpair.1]⟩

end ContractSdk

/-- C1: for every finite set of pairs with unique keys held by a map (in any
iteration order), decoding the encoding succeeds and yields a map with the
same key-value content: the decoded entry list corresponds pairwise (same
key, value related by the value codec's round-trip relation `R`) and lookups
agree at every key.  The value codec is abstract: instantiating `dV`/`eV`
with `mapDecode`/`mapEncode` and `R` with content equivalence covers maps
nested as values, whose own round trip is this very statement.  The length
bound is the `usize`-to-`u32` cast in the encoder's length prefix. -/
theorem ContractSdk.map_roundtrip {K V : Type} [DecidableEq K] (dK : ContractSdk.Dec K)
    (eK : K → ContractSdk.Bytes) (dV : ContractSdk.Dec V) (eV : V → ContractSdk.Bytes)
    (R : V → V → Prop) (m : ContractSdk.Map K V)
    (hK : ∀ p ∈ m.inner, ∀ rest, dK (eK p.1 ++ rest) = some (p.1, rest))
    (hV : ∀ p ∈ m.inner, ∀ rest, ∃ v2, dV (eV p.2 ++ rest) = some (v2, rest) ∧ R p.2 v2)
    (hnd : (m.inner.map Prod.fst).Nodup)
    (hlen : m.inner.length < 2 ^ 32) (rest : ContractSdk.Bytes) :
    ∃ m2 : ContractSdk.Map K V,
      ContractSdk.mapDecode dK dV (ContractSdk.mapEncode eK eV m ++ rest) = some (m2, rest) ∧
      List.Forall₂ (fun p q => p.1 = q.1 ∧ R p.2 q.2) m.inner m2.inner ∧
      ∀ k, Option.Rel R (m.get k) (m2.get k) := by
  open ContractSdk in
  have hpair : ∀ p ∈ m.inner, ∀ tail, ∃ p2,
      pairDec dK dV (pairEnc eK eV p ++ tail) = some (p2, tail) ∧
      (p.1 = p2.1 ∧ R p.2 p2.2) := by
    intro p hp tail
    obtain ⟨v2, hv2, hr⟩ := hV p hp tail
    refine ⟨(p.1, v2), ?_, rfl, hr⟩
    simp only [pairEnc, pairDec, List.append_assoc, hK p hp (eV p.2 ++ tail), hv2]
  obtain ⟨l2, hl2, hfa⟩ :=
    ContractSdk.decodeItems_flatten (pairDec dK dV) _ (pairEnc eK eV) m.inner hpair rest
  have hmod : m.inner.length % 2 ^ 32 = m.inner.length := Nat.mod_eq_of_lt hlen
  have hcompact : compactDecode (compactEncode (m.inner.length % 2 ^ 32)
      ++ ((m.inner.map (pairEnc eK eV)).flatten ++ rest))
      = some (m.inner.length, (m.inner.map (pairEnc eK eV)).flatten ++ rest) := by
    rw [hmod]
    exact compactDecode_compactEncode m.inner.length hlen _
  have hnd2 : (l2.map Prod.fst).Nodup := (forall₂_map_fst hfa) ▸ hnd
  have hinner : (l2.foldl (fun m p => m.insert p.1 p.2) Map.default).inner = l2 := by
    rw [foldl_insert_inner l2 Map.default hnd2 (fun p hp => absurd hp (by simp [Map.default]))]
    rfl
  refine ⟨l2.foldl (fun m p => m.insert p.1 p.2) Map.default, ?_, ?_, ?_⟩
  · simp only [mapEncode, mapDecode, List.append_assoc, hcompact, hl2]
  · rw [hinner]; exact hfa
  · intro k
    show Option.Rel R (lookupKV m.inner k) _
    rw [Map.get, hinner]
    exact lookup_forall₂ R m.inner l2 hfa k

/-- Witness for C1: the round trip applied to the concrete nested map of
the repository's `nested_maps_work` test, with `u32` keys and nested-map
values; the nested values' codec hypothesis is discharged by the round-trip
theorem itself applied to the inner map. -/
theorem map_roundtrip_witness :
    ∃ m2 : ContractSdk.Map Nat (ContractSdk.Map Nat Nat),
      ContractSdk.mapDecode ContractSdk.decU32
          (ContractSdk.mapDecode ContractSdk.decU32 ContractSdk.decU32)
          (ContractSdk.mapEncode ContractSdk.encU32
            (ContractSdk.mapEncode ContractSdk.encU32 ContractSdk.encU32)
            ContractSdk.sampleNested ++ []) = some (m2, []) ∧
      List.Forall₂ (fun p q => p.1 = q.1 ∧ ContractSdk.mapContentEq p.2 q.2)
        ContractSdk.sampleNested.inner m2.inner ∧
      ∀ k, Option.Rel ContractSdk.mapContentEq
        (ContractSdk.sampleNested.get k) (m2.get k) := by
  open ContractSdk in
  have hInner : ∀ tail, ∃ v2,
      mapDecode decU32 decU32 (mapEncode encU32 encU32 sampleInner ++ tail)
        = some (v2, tail) ∧ mapContentEq sampleInner v2 := by
    intro tail
    obtain ⟨v2, hdec, hfa, hget⟩ :=
      ContractSdk.map_roundtrip decU32 encU32 decU32 encU32 Eq sampleInner
        (by
          intro p hp tail2
          have hp2 : p = (7, 9) := by simpa [sampleInner] using hp
          subst hp2
          exact decU32_encU32 7 (by norm_num) tail2)
        (by
          intro p hp tail2
          exact ⟨p.2, decU32_encU32 p.2 (by
            have hp2 : p = (7, 9) := by simpa [sampleInner] using hp
            subst hp2
            norm_num) tail2, rfl⟩)
        (by decide) (by decide) tail
    exact ⟨v2, hdec, hfa, hget⟩
  exact ContractSdk.map_roundtrip decU32 encU32
    (mapDecode decU32 decU32) (mapEncode encU32 encU32) mapContentEq sampleNested
    (by
      intro p hp tail
      rcases (by simpa [sampleNested] using hp :
          p = (1, sampleInner) ∨ p = (2, sampleInner)) with hp2 | hp2 <;>
        (subst hp2; exact decU32_encU32 _ (by norm_num) tail))
    (by
      intro p hp tail
      have hp2 : p.2 = sampleInner := by
        rcases (by simpa [sampleNested] using hp :
            p = (1, sampleInner) ∨ p = (2, sampleInner)) with h | h <;> (subst h; rfl)
      rw [hp2]
      exact hInner tail)
    (by decide) (by decide) []

/-- C4: storage-key derivation is a total pure function of the input bytes:
the derived key always has exactly 32 bytes, the byte at each position
`i < 32` is the input's byte there when the input is long enough and zero
otherwise (so inputs of length ≥ 32 are truncated to their first 32 bytes,
shorter inputs are left-aligned and zero-padded), and the empty input
derives to the all-zero key. -/
theorem storage_key_derivation (b : ContractSdk.Bytes) (i : Nat) (hi : i < 32) :
    (ContractSdk.storageKeyFrom b).length = 32 ∧
    (ContractSdk.storageKeyFrom b)[i]? = (if i < b.length then b[i]? else some 0) ∧
    ContractSdk.storageKeyFrom [] = ContractSdk.STORAGE_KEY_ZERO := by
  refine ⟨ContractSdk.storageKeyFrom_length b, ?_, rfl⟩
  unfold ContractSdk.storageKeyFrom
  split
  · rename_i hb
    rw [List.getElem?_take_of_lt hi, if_pos (by omega)]
  · rename_i hb
    push_neg at hb
    by_cases hib : i < b.length
    · rw [List.getElem?_append_left hib, if_pos hib]
    · push_neg at hib
      rw [List.getElem?_append_right hib, if_neg (by omega),
        List.getElem?_replicate_of_lt (by omega)]

/-- Witness for C4: the derivation evaluated at the byte string `[1, 2, 3]`
and position 1 (an in-range input byte) and, via the bundled conjuncts, at
the empty input. -/
theorem storage_key_derivation_witness :
    (ContractSdk.storageKeyFrom [1, 2, 3]).length = 32 ∧
    (ContractSdk.storageKeyFrom [1, 2, 3])[1]? = (if 1 < [1, 2, 3].length then [1, 2, 3][1]? else some 0) ∧
    ContractSdk.storageKeyFrom [] = ContractSdk.STORAGE_KEY_ZERO :=
  storage_key_derivation [1, 2, 3] 1 (by decide)

/-- C2 (code evaluation at the failing input): the byte string `[4]`
declares one entry and carries no pair data, so `Map`'s decode fails on it;
`Map::load` of a store holding `[4]` under the derived key of name `[109]`
does fail, but `Map::load_or_create` of the same store returns a fresh
empty map bound to the requested key instead of surfacing the decode error
— its `.unwrap_or(Self::new(key))` contradicts the claim and the function's
own doc comment (`map.rs` line 101: "This will panic if the stored data has
an invalid encoding"). -/
theorem load_or_create_swallows_decode_error :
    ContractSdk.mapDecode ContractSdk.decU32 ContractSdk.decU32 [4]
      = (none : Option (ContractSdk.Map Nat Nat × ContractSdk.Bytes)) ∧
    ContractSdk.Map.load ContractSdk.decU32 ContractSdk.decU32
      (fun k => if k = ContractSdk.to_storage_key [109] then some [4] else none) [109]
      = (none : Option (ContractSdk.Map Nat Nat)) ∧
    ContractSdk.Map.load_or_create ContractSdk.decU32 ContractSdk.decU32
      (fun k => if k = ContractSdk.to_storage_key [109] then some [4] else none) [109]
      = (ContractSdk.Map.new [109] : ContractSdk.Map Nat Nat) ∧
    (ContractSdk.Map.new [109] : ContractSdk.Map Nat Nat).inner = [] := by
  refine ⟨rfl, ?_, ?_, rfl⟩ <;> decide

/-- C3 (amended): `put_kv(k, Some(v))` passes exactly the bytes `v` under
`k` with the value-present flag set, and applying the host write stores
`v` under `k`; `put_kv(k, None)` passes the value-absent flag
(`value_non_null = 0`) with no bytes — the host-level clear, after which no
entry remains under `k`; the fixed-length all-zero sentinel is written not
by `put_kv(k, None)` but by `Storage::remove`, which calls `put_kv` with
`Some` of the 32 zero bytes under the derived key. -/
theorem put_kv_value_and_clear (k v name : ContractSdk.Bytes) (store : ContractSdk.Store) :
    ContractSdk.put_kv k (some v)
      = { key := k, value_non_null := 1, value := v } ∧
    ContractSdk.applyCall store (ContractSdk.put_kv k (some v)) k = some v ∧
    ContractSdk.put_kv k none = { key := k, value_non_null := 0, value := [] } ∧
    ContractSdk.applyCall store (ContractSdk.put_kv k none) k = none ∧
    ContractSdk.storageRemove name
      = ContractSdk.put_kv (ContractSdk.storageKeyFrom name)
          (some ContractSdk.STORAGE_KEY_ZERO) := by
  refine ⟨rfl, ?_, rfl, ?_, rfl⟩ <;> simp [ContractSdk.applyCall, ContractSdk.put_kv]

/-- Counterexample for C3 as stated: at the concrete key `[7]` padded to 32
bytes, the call `put_kv(key, None)` is not a write of the all-zero sentinel:
its `value_non_null` flag is 0 and it carries no bytes, it differs from the
sentinel write `Storage::remove` makes, and after the host applies it no
entry remains under the key (whereas the sentinel write leaves the 32 zero
bytes stored). -/
theorem put_kv_none_is_not_sentinel_write :
    ContractSdk.put_kv (ContractSdk.storageKeyFrom [7]) none
        ≠ ContractSdk.put_kv (ContractSdk.storageKeyFrom [7])
            (some ContractSdk.STORAGE_KEY_ZERO) ∧
    (ContractSdk.put_kv (ContractSdk.storageKeyFrom [7]) none).value
        ≠ ContractSdk.STORAGE_KEY_ZERO ∧
    ContractSdk.applyCall (fun _ => none)
      (ContractSdk.put_kv (ContractSdk.storageKeyFrom [7]) none)
      (ContractSdk.storageKeyFrom [7]) = none ∧
    ContractSdk.applyCall (fun _ => none) (ContractSdk.storageRemove [7])
      (ContractSdk.storageKeyFrom [7]) = some ContractSdk.STORAGE_KEY_ZERO := by
  refine ⟨by decide, by decide, ?_, ?_⟩ <;>
    simp [ContractSdk.applyCall, ContractSdk.put_kv, ContractSdk.storageRemove]

/-- C5: a strict `Map::load` of a name whose derived storage key was never
written fails — the `get_kv(...).unwrap()` panic on `None`, modelled as
`none` — and in particular never returns an empty map. -/
theorem load_absent_fails {K V : Type} [DecidableEq K] (dK : ContractSdk.Dec K)
    (dV : ContractSdk.Dec V) (store : ContractSdk.Store) (key : ContractSdk.Bytes)
    (h : store (ContractSdk.to_storage_key key) = none) :
    ContractSdk.Map.load dK dV store key = (none : Option (ContractSdk.Map K V)) := by
  unfold ContractSdk.Map.load ContractSdk.get_kv
  rw [h]

/-- Witness for C5: loading any name from the store with no entries at all
fails. -/
theorem load_absent_fails_witness :
    ContractSdk.Map.load ContractSdk.decU32 ContractSdk.decU32 (fun _ => none) [42]
      = (none : Option (ContractSdk.Map Nat Nat)) :=
  load_absent_fails ContractSdk.decU32 ContractSdk.decU32 (fun _ => none) [42] rfl

/-- C6: the storage key bound by `Map::load_or_create` is always the
derivation of the requested name — set explicitly after a successful
decode, and via `Map::new(key)` otherwise — and a name whose derived key
was never written yields the empty map bound to that derived key. -/
theorem load_or_create_binds_requested_key {K V : Type} [DecidableEq K]
    (dK : ContractSdk.Dec K) (dV : ContractSdk.Dec V) (store : ContractSdk.Store)
    (key : ContractSdk.Bytes) :
    (ContractSdk.Map.load_or_create dK dV store key).storage_key
        = ContractSdk.to_storage_key key ∧
    (store (ContractSdk.to_storage_key key) = none →
      ContractSdk.Map.load_or_create dK dV store key
        = ({ inner := [], storage_key := ContractSdk.to_storage_key key } :
            ContractSdk.Map K V)) := by
  constructor
  · unfold ContractSdk.Map.load_or_create
    split
    · rfl
    · rfl
  · intro h
    unfold ContractSdk.Map.load_or_create ContractSdk.get_kv
    rw [h]
    rfl

/-- Witness for C6: `load_or_create` of the never-written name `[109]` on
the empty store yields the empty map bound to the derived key. -/
theorem load_or_create_binds_requested_key_witness :
    (ContractSdk.Map.load_or_create ContractSdk.decU32 ContractSdk.decU32
        (fun _ => none) [109] : ContractSdk.Map Nat Nat).storage_key
      = ContractSdk.to_storage_key [109] ∧
    ContractSdk.Map.load_or_create ContractSdk.decU32 ContractSdk.decU32
        (fun _ => none) [109]
      = ({ inner := [], storage_key := ContractSdk.to_storage_key [109] } :
          ContractSdk.Map Nat Nat) :=
  ⟨(load_or_create_binds_requested_key ContractSdk.decU32 ContractSdk.decU32
      (fun _ => none) [109]).1,
   (load_or_create_binds_requested_key ContractSdk.decU32 ContractSdk.decU32
      (fun _ => none) [109]).2 rfl⟩

/-- C7: `Map::flush` makes exactly one host write: a single `put_kv` of the
full encoding of the in-memory table under the bound key (re-derivation of
the already 32-byte key is the identity); after the host applies that
write, the bytes under the bound key are the encoding of the in-memory
content and every other key is untouched. -/
theorem flush_single_full_write {K V : Type} [DecidableEq K] (eK : K → ContractSdk.Bytes)
    (eV : V → ContractSdk.Bytes) (m : ContractSdk.Map K V) (store : ContractSdk.Store)
    (h : m.storage_key.length = 32) :
    ContractSdk.Map.flushCalls eK eV m
      = [ContractSdk.put_kv m.storage_key (some (ContractSdk.mapEncode eK eV m))] ∧
    ContractSdk.applyCall store
      (ContractSdk.put_kv m.storage_key (some (ContractSdk.mapEncode eK eV m)))
      m.storage_key = some (ContractSdk.mapEncode eK eV m) ∧
    ∀ k2, k2 ≠ m.storage_key →
      ContractSdk.applyCall store
        (ContractSdk.put_kv m.storage_key (some (ContractSdk.mapEncode eK eV m))) k2
        = store k2 := by
  refine ⟨?_, ?_, ?_⟩
  · unfold ContractSdk.Map.flushCalls ContractSdk.to_storage_key
    rw [ContractSdk.storageKeyFrom_of_length32 m.storage_key h]
  · simp [ContractSdk.applyCall, ContractSdk.put_kv]
  · intro k2 hk2
    simp [ContractSdk.applyCall, ContractSdk.put_kv, hk2]

/-- Witness for C7: flushing the sample nested map (whose bound key is the
32-byte zero key). -/
theorem flush_single_full_write_witness :
    ContractSdk.Map.flushCalls ContractSdk.encU32
        (ContractSdk.mapEncode ContractSdk.encU32 ContractSdk.encU32)
        ContractSdk.sampleNested
      = [ContractSdk.put_kv ContractSdk.sampleNested.storage_key
          (some (ContractSdk.mapEncode ContractSdk.encU32
            (ContractSdk.mapEncode ContractSdk.encU32 ContractSdk.encU32)
            ContractSdk.sampleNested))] ∧
    ContractSdk.applyCall (fun _ => none)
      (ContractSdk.put_kv ContractSdk.sampleNested.storage_key
        (some (ContractSdk.mapEncode ContractSdk.encU32
          (ContractSdk.mapEncode ContractSdk.encU32 ContractSdk.encU32)
          ContractSdk.sampleNested)))
      ContractSdk.sampleNested.storage_key
      = some (ContractSdk.mapEncode ContractSdk.encU32
          (ContractSdk.mapEncode ContractSdk.encU32 ContractSdk.encU32)
          ContractSdk.sampleNested) ∧
    ∀ k2, k2 ≠ ContractSdk.sampleNested.storage_key →
      ContractSdk.applyCall (fun _ => none)
        (ContractSdk.put_kv ContractSdk.sampleNested.storage_key
          (some (ContractSdk.mapEncode ContractSdk.encU32
            (ContractSdk.mapEncode ContractSdk.encU32 ContractSdk.encU32)
            ContractSdk.sampleNested))) k2
        = (fun _ => none : ContractSdk.Store) k2 :=
  flush_single_full_write ContractSdk.encU32
    (ContractSdk.mapEncode ContractSdk.encU32 ContractSdk.encU32)
    ContractSdk.sampleNested (fun _ => none) (by decide)

/-- C8: `Map::remove` is in-memory only — in the embedding a pure function
of the map value, leaving the bound key (and any store) untouched; on a key
with no entry it is a no-op on the whole map; and on a map whose table
satisfies the hash-map invariant of unique keys, after `remove(k)` a
`get(k)` returns `none` and `contains_key(k)` is `false`. -/
theorem remove_semantics {K V : Type} [DecidableEq K] (m : ContractSdk.Map K V) (k : K)
    (hnd : (m.inner.map Prod.fst).Nodup) :
    (m.remove k).storage_key = m.storage_key ∧
    (m.contains_key k = false → m.remove k = m) ∧
    (m.remove k).get k = none ∧
    (m.remove k).contains_key k = false := by
  refine ⟨rfl, ?_, ?_, ?_⟩
  · intro h
    unfold ContractSdk.Map.remove
    rw [ContractSdk.removeKV_not_mem m.inner k h]
  · exact ContractSdk.lookupKV_removeKV m.inner k hnd
  · rw [ContractSdk.Map.contains_key, ContractSdk.Map.remove,
      ContractSdk.containsKV_eq_isSome]
    rw [ContractSdk.lookupKV_removeKV m.inner k hnd]
    rfl

/-- Witness for C8: removing key 7 from the sample inner map `{7 ↦ 9}`. -/
theorem remove_semantics_witness :
    (ContractSdk.sampleInner.remove 7).storage_key
        = ContractSdk.sampleInner.storage_key ∧
    (ContractSdk.sampleInner.contains_key 7 = false →
      ContractSdk.sampleInner.remove 7 = ContractSdk.sampleInner) ∧
    (ContractSdk.sampleInner.remove 7).get 7 = none ∧
    (ContractSdk.sampleInner.remove 7).contains_key 7 = false :=
  remove_semantics ContractSdk.sampleInner 7 (by decide)

/-- C9: at the `Storage::get` interface the result is `none` both when
nothing was ever stored under the derived key and when stored bytes fail to
decode as the value type, so a caller cannot distinguish absence from
malformed data. -/
theorem storage_get_conflates_absence_and_garbage {V : Type} (dV : ContractSdk.Dec V)
    (store : ContractSdk.Store) (key : ContractSdk.Bytes) :
    (store (ContractSdk.storageKeyFrom key) = none →
      ContractSdk.storageGet dV store key = none) ∧
    (∀ bs, store (ContractSdk.storageKeyFrom key) = some bs → dV bs = none →
      ContractSdk.storageGet dV store key = none) := by
  constructor
  · intro h
    unfold ContractSdk.storageGet ContractSdk.get_kv
    rw [h]
  · intro bs hbs hdec
    unfold ContractSdk.storageGet ContractSdk.get_kv
    rw [hbs]
    show (dV bs).map Prod.fst = none
    rw [hdec]
    rfl

/-- Witness for C9: `Storage::get` as a `u32` returns `none` on the empty
store at name `[1]` and on a store holding the single undecodable byte
`[9]` at name `[2]`. -/
theorem storage_get_conflates_witness :
    ContractSdk.storageGet ContractSdk.decU32 (fun _ => none) [1] = none ∧
    ContractSdk.storageGet ContractSdk.decU32
      (fun k => if k = ContractSdk.storageKeyFrom [2] then some [9] else none) [2]
      = none :=
  ⟨(storage_get_conflates_absence_and_garbage ContractSdk.decU32 (fun _ => none) [1]).1 rfl,
   (storage_get_conflates_absence_and_garbage ContractSdk.decU32
      (fun k => if k = ContractSdk.storageKeyFrom [2] then some [9] else none) [2]).2
      [9] (by decide) rfl⟩

/-- C10: every map produced by `Map`'s decode is bound to the all-zero
storage key (it is built on `Map::default`, and the encoding carries no
key); every nested map decoded as a value inside another map is likewise
bound to the all-zero key; and flushing any map whose bound key is the
all-zero key writes under the all-zero (sentinel-colliding) key. -/
theorem decode_binds_zero_key {K K2 V V2 : Type} [DecidableEq K] [DecidableEq K2]
    (dK : ContractSdk.Dec K) (dV : ContractSdk.Dec V) (dK2 : ContractSdk.Dec K2)
    (dV2 : ContractSdk.Dec V2) (eK : K → ContractSdk.Bytes) (eV : V → ContractSdk.Bytes) :
    (∀ bs (m : ContractSdk.Map K V) rest,
      ContractSdk.mapDecode dK dV bs = some (m, rest) →
        m.storage_key = ContractSdk.STORAGE_KEY_ZERO) ∧
    (∀ bs (m : ContractSdk.Map K (ContractSdk.Map K2 V2)) rest,
      ContractSdk.mapDecode dK (ContractSdk.mapDecode dK2 dV2) bs = some (m, rest) →
        ∀ p ∈ m.inner, p.2.storage_key = ContractSdk.STORAGE_KEY_ZERO) ∧
    (∀ m : ContractSdk.Map K V, m.storage_key = ContractSdk.STORAGE_KEY_ZERO →
      ContractSdk.Map.flushCalls eK eV m
        = [ContractSdk.put_kv ContractSdk.STORAGE_KEY_ZERO
            (some (ContractSdk.mapEncode eK eV m))]) := by
  refine ⟨?_, ?_, ?_⟩
  · intro bs m rest h
    exact ContractSdk.mapDecode_key_zero dK dV bs m rest h
  · intro bs m rest h p hp
    obtain ⟨bs2, rest2, hv⟩ :=
      ContractSdk.mapDecode_inner dK (ContractSdk.mapDecode dK2 dV2) bs m rest h p hp
    exact ContractSdk.mapDecode_key_zero dK2 dV2 bs2 p.2 rest2 hv
  · intro m hkey
    unfold ContractSdk.Map.flushCalls ContractSdk.to_storage_key
    rw [hkey, ContractSdk.storageKeyFrom_of_length32 _ (by decide)]

/-- Witness for C10: the encoding of the sample nested map decodes back to
it exactly (keys in the encoding are absent, all bound keys zero), so the
theorem applies with every hypothesis evaluated: the outer decoded map and
both nested decoded values are bound to the all-zero key, and its flush
writes under the all-zero key. -/
theorem decode_binds_zero_key_witness :
    ContractSdk.sampleNested.storage_key = ContractSdk.STORAGE_KEY_ZERO ∧
    (∀ p ∈ ContractSdk.sampleNested.inner,
      p.2.storage_key = ContractSdk.STORAGE_KEY_ZERO) ∧
    ContractSdk.Map.flushCalls ContractSdk.encU32
        (ContractSdk.mapEncode ContractSdk.encU32 ContractSdk.encU32)
        ContractSdk.sampleNested
      = [ContractSdk.put_kv ContractSdk.STORAGE_KEY_ZERO
          (some (ContractSdk.mapEncode ContractSdk.encU32
            (ContractSdk.mapEncode ContractSdk.encU32 ContractSdk.encU32)
            ContractSdk.sampleNested))] := by
  have h := decode_binds_zero_key ContractSdk.decU32
    (ContractSdk.mapDecode ContractSdk.decU32 ContractSdk.decU32) ContractSdk.decU32
    ContractSdk.decU32 ContractSdk.encU32
    (ContractSdk.mapEncode ContractSdk.encU32 ContractSdk.encU32)
  have henc : ContractSdk.mapDecode ContractSdk.decU32
      (ContractSdk.mapDecode ContractSdk.decU32 ContractSdk.decU32)
      (ContractSdk.mapEncode ContractSdk.encU32
        (ContractSdk.mapEncode ContractSdk.encU32 ContractSdk.encU32)
        ContractSdk.sampleNested)
      = some (ContractSdk.sampleNested, []) := by decide
  exact ⟨h.1 _ ContractSdk.sampleNested [] henc,
    h.2.1 _ ContractSdk.sampleNested [] henc,
    h.2.2 ContractSdk.sampleNested (h.1 _ ContractSdk.sampleNested [] henc)⟩
